import Mathlib

/-!
Verification of the lucidstate reactive-state library (src/index.ts).

The embedding mirrors the four components of the source:

* `queue` / `flushRunList` — the effect scheduler `createEffectScheduler`
  (src/index.ts lines 112-141).  Its `executions` JS `Map` is modelled as an
  insertion-ordered association list `Sched`; `Map.delete` followed by
  `Map.set` (which re-inserts at the end of iteration order) is modelled by
  `eraseKey` followed by appending.
* `SigWorld.set` / `SigWorld.fireToken` — a signal `state(initialValue)`
  (lines 29-61) together with its subscriber set, its abort-token removal
  registrations and the scheduler state it feeds.
* `TWorld` / `runProg` / `effAdd` — the dependency tracker
  `createEffectStack` (lines 97-109) and `State.get` (lines 34-38); callback
  bodies are deep-embedded as the sequence of signal reads they perform
  (`Prog`), plus the possibility of raising.
* `ctxCreate` / `ctxLoad` / `ctxUnload` — the lifecycle block `context`
  (lines 157-175), with an event log recording body invocations, cleanup
  invocations and token firings.

JavaScript `===` on stored values is modelled by decidable equality on
`Value`, where `Value.func k` is a function value with identity `k` (a
function argument to `set` is applied through an environment
`env : Nat → Value → Value`, mirroring `typeof value === "function"`).
-/

/-- A runtime value: `base n` is a non-function value, `func k` is a function
value with reference identity `k`.  `===` is decidable equality. -/
inductive Value where
  | base : Nat → Value
  | func : Nat → Value
deriving DecidableEq, Repr

/-- One per-signal record `{snapshot, update}` kept by the scheduler
(src/index.ts line 111, `type Deps`). -/
structure Dep where
  snapshot : Value
  update : Value
deriving DecidableEq, Repr

/-- The per-callback dependency map `Deps = Map<State, {snapshot, update}>`,
as an insertion-ordered association list keyed by signal id. -/
abbrev Deps := List (Nat × Dep)

/-- The scheduler's `executions : Map<fn, Deps>`, insertion-ordered and keyed
by callback id. -/
abbrev Sched := List (Nat × Deps)

/-- `Map.get` on an association list. -/
def lookupKey (k : Nat) : List (Nat × α) → Option α
  | [] => none
  | (g, d) :: rest => if g = k then some d else lookupKey k rest

/-- `Map.delete` on an association list. -/
def eraseKey (k : Nat) (l : List (Nat × α)) : List (Nat × α) :=
  l.filter (fun p => p.1 ≠ k)

/-- The dependency-tracking step inside `queue` (src/index.ts lines 120-122):
if the signal already has a record its `update` field is overwritten in place
(the `snapshot` is preserved), otherwise a fresh `{snapshot, update}` record
is appended. -/
def updateDep (deps : Deps) (sig : Nat) (snap upd : Value) : Deps :=
  match lookupKey sig deps with
  | some _ => deps.map (fun p => if p.1 = sig then (p.1, ⟨p.2.snapshot, upd⟩) else p)
  | none => deps ++ [(sig, ⟨snap, upd⟩)]

/-- `createEffectScheduler().queue` (src/index.ts lines 115-139).  Returns the
new `executions` map together with the armed flag: the source arms a microtask
flush unless `executions.size > 1` after the re-insertion. -/
def queue (fn sig : Nat) (snap upd : Value) (s : Sched) : Sched × Bool :=
  let deps := (lookupKey fn s).getD []
  let s1 := eraseKey fn s
  let deps1 := updateDep deps sig snap upd
  let s2 := s1 ++ [(fn, deps1)]
  (s2, decide (s2.length = 1))

/-- Whether the flush loop re-invokes a callback: some recorded dependency has
`snapshot !== update` (src/index.ts lines 128-135; the inner loop runs the
callback on the first differing record and breaks). -/
def shouldRun (deps : Deps) : Bool :=
  deps.any (fun p => decide (p.2.snapshot ≠ p.2.update))

/-- The callbacks the microtask flush re-invokes, in iteration order of the
`executions` map (src/index.ts lines 126-137). -/
def flushRunList (s : Sched) : List Nat :=
  (s.filter (fun e => shouldRun e.2)).map (fun e => e.1)

/-- One call to `queue`, for reasoning about a whole batch. -/
structure QOp where
  fn : Nat
  sig : Nat
  snap : Value
  upd : Value
deriving DecidableEq, Repr

/-- Apply a batch of `queue` calls in order. -/
def applyQueues (ops : List QOp) (s : Sched) : Sched :=
  ops.foldl (fun s op => (queue op.fn op.sig op.snap op.upd s).1) s

/-- The callback ids of a scheduler state, in iteration order. -/
def schedKeys (s : Sched) : List Nat := s.map (fun e => e.1)

/-- Keep, for each element of a list, only its last occurrence, ordered by
the position of that last occurrence. -/
def lastOccOrder (l : List Nat) : List Nat :=
  l.foldl (fun acc x => acc.filter (fun y => y ≠ x) ++ [x]) []

/-- A signal created by `state(initialValue)` (src/index.ts lines 29-61),
together with the global scheduler state its `set` feeds.  `subscribers` is
the JS `Set<fn>` in insertion order; `regs` are the callbacks registered for
removal when the abort token fires (`subscribe` with `options.signal`,
lines 55-57); `fired` is whether that token has already fired.  The signal's
own id, used as the `Deps` key when it queues itself (`this` at line 50),
is `0`. -/
structure SigWorld where
  value : Value
  subscribers : List Nat
  regs : List Nat
  fired : Bool
  sched : Sched
deriving DecidableEq, Repr

/-- The candidate new value computed at the top of `set` (src/index.ts
lines 40-43): a function argument is applied to the current value through the
environment `env`, any other argument is taken as is. -/
def candidate (env : Nat → Value → Value) (v cur : Value) : Value :=
  match v with
  | .func k => env k cur
  | _ => v

/-- The notification loop of `set` (src/index.ts lines 49-51): hand
`(fn, this signal, snapshot, newValue)` to the scheduler for every current
subscriber, in subscriber-set iteration order. -/
def foldQ (cur new : Value) (subs : List Nat) (s : Sched) : Sched :=
  subs.foldl (fun s fn => (queue fn 0 cur new s).1) s

/-- `State.set` (src/index.ts lines 39-52): compute the candidate; if it
`===` the stored value return at once; otherwise store it and hand
`(fn, this, snapshot, newValue)` to the scheduler for every current
subscriber, in subscriber-set iteration order. -/
def SigWorld.set (env : Nat → Value → Value) (v : Value) (w : SigWorld) : SigWorld :=
  if w.value = candidate env v w.value then w
  else
    { w with
      value := candidate env v w.value
      sched := foldQ w.value (candidate env v w.value) w.subscribers w.sched }

/-- The callbacks a single `set` call hands to the scheduler: every current
subscriber when the candidate differs from the stored value, nobody
otherwise (src/index.ts lines 45, 49-51). -/
def setQueued (env : Nat → Value → Value) (v : Value) (w : SigWorld) : List Nat :=
  if w.value = candidate env v w.value then [] else w.subscribers

/-- A synchronous burst of `set` calls. -/
def runSets (env : Nat → Value → Value) (vs : List Value) (w : SigWorld) : SigWorld :=
  vs.foldl (fun w v => SigWorld.set env v w) w

/-- `subscribe(fn, options)` (src/index.ts lines 53-59): add `fn` to the
subscriber set (a JS `Set`: re-adding an existing member changes nothing) and,
when an abort token is supplied, register `fn` for removal when it fires. -/
def SigWorld.subscribeFn (fn : Nat) (withToken : Bool) (w : SigWorld) : SigWorld :=
  { w with
    subscribers := if fn ∈ w.subscribers then w.subscribers else w.subscribers ++ [fn]
    regs := if withToken then w.regs ++ [fn] else w.regs }

/-- The abort token firing: each `"abort"` listener installed at
src/index.ts line 56 runs `subscribers.delete(fn)` for its registered `fn`;
an already-fired token does not fire again.  The scheduler state is
untouched. -/
def SigWorld.fireToken (w : SigWorld) : SigWorld :=
  if w.fired then w
  else
    { w with
      subscribers := w.subscribers.filter (fun fn => decide (fn ∉ w.regs))
      fired := true }

/-- A callback body, deep-embedded as the sequence of signal reads it
performs; `raise` models the body throwing at that point.  Reads are the only
body operations the dependency tracker reacts to. -/
inductive Prog where
  | done : Prog
  | raise : Prog
  | read : Nat → Prog → Prog
deriving DecidableEq, Repr

/-- The dependency tracker's world: per-signal subscriber lists and the
process-wide `stack` of `createEffectStack` (src/index.ts line 98).  Stack
entries are callback ids; the top of the JS array `stack[stack.length - 1]`
is the last element. -/
structure TWorld where
  subs : Nat → List Nat
  stack : List Nat

/-- `effects.current()` (src/index.ts lines 105-107). -/
def effCurrent (w : TWorld) : Option Nat := w.stack.getLast?

/-- Subscribe callback `e` to signal `sig` (JS `Set.add`: no duplicates). -/
def addSub (e sig : Nat) (w : TWorld) : TWorld :=
  { w with
    subs := fun i =>
      if i = sig then (if e ∈ w.subs sig then w.subs sig else w.subs sig ++ [e])
      else w.subs i }

/-- `State.get` (src/index.ts lines 34-38): if a callback is on top of the
effect stack, subscribe it to this signal; otherwise just read. -/
def doGet (w : TWorld) (sig : Nat) : TWorld :=
  match effCurrent w with
  | some e => addSub e sig w
  | none => w

/-- Run a callback body in the tracker world.  The boolean is `true` when the
body returned normally and `false` when it raised. -/
def runProg (w : TWorld) : Prog → TWorld × Bool
  | .done => (w, true)
  | .raise => (w, false)
  | .read sig k => runProg (doGet w sig) k

/-- `effects.add` (src/index.ts lines 100-104): push the callback, run it
once, pop.  When the body raises, the exception propagates before
`stack.pop()` runs, so the entry is left on the stack. -/
def effAdd (e : Nat) (body : Prog) (w : TWorld) : TWorld × Bool :=
  let w1 : TWorld := { w with stack := w.stack ++ [e] }
  let r := runProg w1 body
  if r.2 then ({ r.1 with stack := r.1.stack.dropLast }, true) else (r.1, false)

/-- The scheduler's flush re-invoking a callback (src/index.ts line 132,
`fn()`): the body runs directly, with no push onto the effect stack. -/
def flushInvoke (body : Prog) (w : TWorld) : TWorld × Bool := runProg w body

/-- Observable events of a lifecycle block: the body `fn` invoked with a
token, a stored cleanup invoked, the token fired. -/
inductive CtxEvent where
  | inv : Nat → CtxEvent
  | cleanupRun : Nat → CtxEvent
  | tokenFire : Nat → CtxEvent
deriving DecidableEq, Repr

/-- The state of one `context` block (src/index.ts lines 157-175): the
current token id with its fired flag (`controller`), the stored cleanup
(`cb`; `none` models a body returning `undefined`), a counter for allocating
fresh token ids, and the event log. -/
structure CtxState where
  tok : Nat
  fired : Bool
  cb : Option Nat
  nextTok : Nat
  log : List CtxEvent
deriving DecidableEq, Repr

/-- `context(fn, options)` construction (src/index.ts lines 161-163): a fresh
controller is created; unless `options.lazy`, the body runs at once with its
token and the result is stored as cleanup.  The body is modelled as
`fn : Nat → Option Nat`, the cleanup it returns for a given token. -/
def ctxCreate (fn : Nat → Option Nat) (lazy : Bool) : CtxState :=
  if lazy then ⟨0, false, none, 1, []⟩
  else ⟨0, false, fn 0, 1, [.inv 0]⟩

/-- `unload()` (src/index.ts lines 170-173): run the stored cleanup if
present (it is not cleared), then `controller.abort()` — firing the token
only if it has not fired before. -/
def ctxUnload (s : CtxState) : CtxState :=
  let s1 := match s.cb with
    | some c => { s with log := s.log ++ [CtxEvent.cleanupRun c] }
    | none => s
  if s1.fired then s1
  else { s1 with fired := true, log := s1.log ++ [CtxEvent.tokenFire s1.tok] }

/-- `load()` (src/index.ts lines 165-169): `this.unload()` first, then a
fresh controller, then the body runs again with the new token and its result
replaces the stored cleanup. -/
def ctxLoad (fn : Nat → Option Nat) (s : CtxState) : CtxState :=
  let s1 := ctxUnload s
  { s1 with
    tok := s1.nextTok
    fired := false
    nextTok := s1.nextTok + 1
    cb := fn s1.nextTok
    log := s1.log ++ [CtxEvent.inv s1.nextTok] }

/-- The invariant of a batch on one signal whose value was `v0` when the
batch record was last empty, with subscriber set `subs0`: every pending entry
belongs to a subscriber and records exactly the snapshot `v0` together with
the signal's current value; an empty record means the value is still `v0`
(unless nobody subscribes, in which case nothing is ever queued); and a
nonempty record covers every subscriber. -/
def batchInv (v0 : Value) (subs0 : List Nat) (w : SigWorld) : Prop :=
  w.subscribers = subs0 ∧
  (∀ e ∈ w.sched, e.1 ∈ subs0 ∧ e.2 = [(0, Dep.mk v0 w.value)]) ∧
  (w.sched = [] → w.value = v0 ∨ subs0 = []) ∧
  (w.sched ≠ [] → ∀ fn ∈ subs0, (lookupKey fn w.sched).isSome = true)

/-- A concrete environment mapping every function value to the identity
updater. -/
def idEnv : Nat → Value → Value := fun _ v => v

/-- A concrete environment mapping every function value to a constant
updater. -/
def constBaseEnv : Nat → Value → Value := fun _ _ => Value.base 0

/-- A concrete signal world holding the function value `func 7`, with one
subscriber and an empty scheduler. -/
def funcWorld : SigWorld := ⟨Value.func 7, [1], [], false, []⟩

/-- A concrete tracker world: no subscribers anywhere, empty effect stack. -/
def tw0 : TWorld := ⟨fun _ => [], []⟩

/-- A concrete lifecycle-block body whose every run returns cleanup `9`. -/
def cfn9 : Nat → Option Nat := fun _ => some 9

/-! ## Helper lemmas -/

theorem queue_fst (fn sig : Nat) (sn up : Value) (s : Sched) :
    (queue fn sig sn up s).1
      = eraseKey fn s ++ [(fn, updateDep ((lookupKey fn s).getD []) sig sn up)] := rfl

theorem doGet_stack (w : TWorld) (sig : Nat) : (doGet w sig).stack = w.stack := by
  unfold doGet
  cases effCurrent w <;> rfl

theorem runProg_stack (b : Prog) : ∀ w : TWorld, ((runProg w b).1).stack = w.stack := by
  induction b with
  | done => intro w; rfl
  | raise => intro w; rfl
  | read sig k ih =>
      intro w
      show ((runProg (doGet w sig) k).1).stack = w.stack
      rw [ih (doGet w sig), doGet_stack]

theorem runProg_stack_nil (b : Prog) : ∀ w : TWorld, w.stack = [] → (runProg w b).1 = w := by
  induction b with
  | done => intro w _; rfl
  | raise => intro w _; rfl
  | read sig k ih =>
      intro w h
      show (runProg (doGet w sig) k).1 = w
      have hw : doGet w sig = w := by
        unfold doGet effCurrent
        rw [h]
        rfl
      rw [hw]
      exact ih w h

theorem ctxUnload_cb (s : CtxState) : (ctxUnload s).cb = s.cb := by
  rcases s with ⟨tok, fired, cb, nextTok, log⟩
  cases cb <;> cases fired <;> rfl

theorem ctxUnload_tok (s : CtxState) : (ctxUnload s).tok = s.tok := by
  rcases s with ⟨tok, fired, cb, nextTok, log⟩
  cases cb <;> cases fired <;> rfl

theorem ctxUnload_nextTok (s : CtxState) : (ctxUnload s).nextTok = s.nextTok := by
  rcases s with ⟨tok, fired, cb, nextTok, log⟩
  cases cb <;> cases fired <;> rfl

/-! ## Claim theorems -/

/-- C1 counterexample: with the callback `1` already pending (the record is
nonempty), a further `queue` call re-queuing that same callback arms a second
flush — the armed flag is `true` again, contradicting the claim that only the
0→1 transition arms a flush. -/
theorem queue_rearm_cex :
    (queue 1 0 (Value.base 0) (Value.base 1) ([] : Sched)).1 ≠ [] ∧
    (queue 1 0 (Value.base 1) (Value.base 2)
      (queue 1 0 (Value.base 0) (Value.base 1) ([] : Sched)).1).2 = true := by
  decide

/-- C1 (amended): `queue` arms the deferred flush exactly when every entry
already in the pending record belongs to the callback being queued — in
particular on the empty record (0→1 transition), and never while a different
callback is pending; but re-queuing the sole pending callback does arm an
additional flush. -/
theorem queue_arms_iff_sole_pending (fn sig : Nat) (sn up : Value) (s : Sched) :
    (queue fn sig sn up s).2 = true ↔ ∀ e ∈ s, e.1 = fn := by
  show decide ((eraseKey fn s
      ++ [(fn, updateDep ((lookupKey fn s).getD []) sig sn up)]).length = 1) = true
    ↔ ∀ e ∈ s, e.1 = fn
  rw [decide_eq_true_eq, List.length_append]
  simp only [List.length_singleton]
  constructor
  · intro h e he
    have hlen : (eraseKey fn s).length = 0 := by omega
    have hnil : eraseKey fn s = [] := List.eq_nil_of_length_eq_zero hlen
    by_contra hne
    have : e ∈ eraseKey fn s := by
      unfold eraseKey
      exact List.mem_filter.mpr ⟨he, by simpa using hne⟩
    rw [hnil] at this
    exact absurd this (List.not_mem_nil e)
  · intro h
    have hnil : eraseKey fn s = [] := by
      unfold eraseKey
      rw [List.filter_eq_nil_iff]
      intro e he
      simpa using h e he
    rw [hnil]
    rfl

/-- C1 witness: on the empty record, `queue` arms the flush. -/
theorem queue_arms_iff_sole_pending_w :
    (queue 1 0 (Value.base 0) (Value.base 1) ([] : Sched)).2 = true :=
  (queue_arms_iff_sole_pending 1 0 (Value.base 0) (Value.base 1) []).mpr (by simp)

/-- C2 counterexample: the signal holds the function value `func 7`; calling
`set` with that very value takes the updater branch
(`typeof value === "function"`), computes `env 7 (func 7) = base 0`, stores
it and hands a notification to the scheduler — so setting a signal to its
current value is not always a no-op. -/
theorem set_same_value_cex :
    funcWorld.value = Value.func 7 ∧
    (SigWorld.set constBaseEnv (Value.func 7) funcWorld).sched ≠ [] ∧
    (SigWorld.set constBaseEnv (Value.func 7) funcWorld).value ≠ funcWorld.value := by
  decide

/-- C2 (amended): for every non-function value `v`, if the signal currently
holds `v` then `set v` returns with the world unchanged — nothing is handed
to the scheduler and the stored value stays the same. -/
theorem set_same_value_noop (env : Nat → Value → Value) (v : Value) (w : SigWorld)
    (hnf : ∀ k, v ≠ Value.func k) (hv : w.value = v) :
    SigWorld.set env v w = w := by
  have hc : candidate env v w.value = v := by
    cases v with
    | base n => rfl
    | func k => exact absurd rfl (hnf k)
  unfold SigWorld.set
  rw [hc, if_pos hv]

/-- C2 witness: setting a signal holding `base 5` to `base 5` changes
nothing. -/
theorem set_same_value_noop_w :
    SigWorld.set idEnv (Value.base 5) ⟨Value.base 5, [1], [], false, []⟩
      = (⟨Value.base 5, [1], [], false, []⟩ : SigWorld) :=
  set_same_value_noop idEnv (Value.base 5) _ (by intro k; simp) rfl

/-- C5: the scheduler's flush re-invokes a callback without pushing it onto
the dependency tracker's stack: at flush time the stack is empty, so
`effects.current()` is `none` and running any callback body through the
flush path leaves every signal's subscriber list unchanged — a read occurring
for the first time during a rerun subscribes nobody. -/
theorem flush_rerun_no_subscribe (body : Prog) (w : TWorld) (h : w.stack = []) :
    effCurrent w = none ∧ ∀ sig, ((flushInvoke body w).1).subs sig = w.subs sig := by
  constructor
  · unfold effCurrent
    rw [h]
    rfl
  · intro sig
    rw [show (flushInvoke body w).1 = w from runProg_stack_nil body w h]

/-- C5 witness: flushing a body that reads signal 0, in a world with an empty
stack, leaves signal 0's subscribers unchanged. -/
theorem flush_rerun_no_subscribe_w :
    effCurrent tw0 = none ∧
    ((flushInvoke (Prog.read 0 Prog.done) tw0).1).subs 0 = tw0.subs 0 :=
  ⟨(flush_rerun_no_subscribe (Prog.read 0 Prog.done) tw0 rfl).1,
   (flush_rerun_no_subscribe (Prog.read 0 Prog.done) tw0 rfl).2 0⟩

/-- C7: lifecycle of a context block.  Non-lazy creation runs the body
exactly once, immediately, with the fresh unfired token `0`, storing its
return value as cleanup; lazy creation runs nothing; `load` first performs
`unload` (whose events prefix the log), then allocates a fresh token — new,
unfired — and runs the body again with it, storing the new cleanup; and
`unload` itself runs the stored cleanup (when present) before firing the
current token. -/
theorem context_lifecycle (fn : Nat → Option Nat) :
    ((ctxCreate fn false).log = [CtxEvent.inv 0] ∧
     (ctxCreate fn false).cb = fn 0 ∧
     (ctxCreate fn false).fired = false) ∧
    ((ctxCreate fn true).log = [] ∧ (ctxCreate fn true).cb = none) ∧
    (∀ s : CtxState,
      (ctxLoad fn s).log = (ctxUnload s).log ++ [CtxEvent.inv s.nextTok] ∧
      (ctxLoad fn s).cb = fn s.nextTok ∧
      (ctxLoad fn s).tok = s.nextTok ∧
      (ctxLoad fn s).fired = false) ∧
    (∀ s : CtxState, ∀ c : Nat, s.cb = some c → s.fired = false →
      (ctxUnload s).log = s.log ++ [CtxEvent.cleanupRun c, CtxEvent.tokenFire s.tok]) := by
  refine ⟨⟨rfl, rfl, rfl⟩, ⟨rfl, rfl⟩, ?_, ?_⟩
  · intro s
    refine ⟨?_, ?_, ?_, rfl⟩ <;>
      simp [ctxLoad, ctxUnload_nextTok]
  · intro s c hc hf
    rcases s with ⟨tok, fired, cb, nextTok, log⟩
    cases hc
    cases hf
    simp [ctxUnload]

/-- C7 witness: unloading a freshly created (non-lazy) context with body
`cfn9` logs the cleanup run followed by the token firing. -/
theorem context_lifecycle_w :
    (ctxUnload (ctxCreate cfn9 false)).log
      = (ctxCreate cfn9 false).log
        ++ [CtxEvent.cleanupRun 9, CtxEvent.tokenFire (ctxCreate cfn9 false).tok] :=
  (context_lifecycle cfn9).2.2.2 (ctxCreate cfn9 false) 9 rfl rfl

/-- C10: `unload` does not clear the stored cleanup, so a second `unload`
invokes the same cleanup again, while the token fires only once: two
consecutive unloads of a loaded, unfired context log cleanup, fire, cleanup.
-/
theorem unload_cleanup_not_cleared (s : CtxState) (c : Nat)
    (hc : s.cb = some c) (hf : s.fired = false) :
    (ctxUnload s).cb = some c ∧
    (ctxUnload (ctxUnload s)).log
      = s.log ++ [CtxEvent.cleanupRun c, CtxEvent.tokenFire s.tok, CtxEvent.cleanupRun c] := by
  rcases s with ⟨tok, fired, cb, nextTok, log⟩
  cases hc
  cases hf
  exact ⟨rfl, by simp [ctxUnload]⟩

/-- C10 witness: two unloads of a non-lazy context whose body returned
cleanup `9` run that cleanup twice and fire the token once, in the order
cleanup, fire, cleanup. -/
theorem unload_cleanup_not_cleared_w :
    (ctxUnload (ctxCreate cfn9 false)).cb = some 9 ∧
    (ctxUnload (ctxUnload (ctxCreate cfn9 false))).log
      = (ctxCreate cfn9 false).log
        ++ [CtxEvent.cleanupRun 9, CtxEvent.tokenFire (ctxCreate cfn9 false).tok,
            CtxEvent.cleanupRun 9] :=
  unload_cleanup_not_cleared (ctxCreate cfn9 false) 9 rfl rfl

/-- C9: `set` branches on the runtime type of its argument: a function value
is always treated as an updater — the stored value after `set (func k)` is
the updater's result `env k` applied to the current value, never `func k`
itself via the direct-value branch — while a non-function argument is stored
as given. -/
theorem set_function_arg_applies :
    (∀ (env : Nat → Value → Value) (k : Nat) (w : SigWorld),
      (SigWorld.set env (Value.func k) w).value = env k w.value) ∧
    (∀ (env : Nat → Value → Value) (n : Nat) (w : SigWorld),
      (SigWorld.set env (Value.base n) w).value = Value.base n) := by
  constructor
  · intro env k w
    unfold SigWorld.set
    split
    · next h => exact h
    · rfl
  · intro env n w
    unfold SigWorld.set
    split
    · next h => exact h
    · rfl

/-- C8 counterexample: after effect `5` raises during its tracked first run
(the stack keeps its entry), a get performed inside the tracked first run of
a later effect `7` subscribes `7`, not the failed callback `5` — so it is not
true that every subsequent get, from any code, subscribes the failed
callback. -/
theorem effect_throw_cex :
    ((effAdd 5 Prog.raise tw0).1).stack = [5] ∧
    5 ∉ ((effAdd 7 (Prog.read 0 Prog.done) (effAdd 5 Prog.raise tw0).1).1).subs 0 ∧
    7 ∈ ((effAdd 7 (Prog.read 0 Prog.done) (effAdd 5 Prog.raise tw0).1).1).subs 0 := by
  refine ⟨rfl, ?_, ?_⟩ <;> decide

/-- C8 (amended): when an effect body raises during its tracked first run,
`effects.add` propagates the exception before its `stack.pop()`, so the
failed callback's entry stays on the stack; every later get performed while
that entry is on top (in particular any top-level get after the exception)
auto-subscribes the failed callback to the signal read; the stack-balance
invariant (push then pop) holds exactly for bodies that return normally. -/
theorem effect_throw_stack_leak (e : Nat) (body : Prog) (w : TWorld)
    (hraise : (runProg { w with stack := w.stack ++ [e] } body).2 = false) :
    (effAdd e body w).2 = false ∧
    ((effAdd e body w).1).stack = w.stack ++ [e] ∧
    (∀ (sig : Nat) (w2 : TWorld), w2.stack = w.stack ++ [e] →
      e ∈ (doGet w2 sig).subs sig) ∧
    (∀ body2 : Prog, (runProg { w with stack := w.stack ++ [e] } body2).2 = true →
      ((effAdd e body2 w).1).stack = w.stack) := by
  refine ⟨?_, ?_, ?_, ?_⟩
  · unfold effAdd
    rw [if_neg (by rw [hraise]; exact Bool.false_ne_true)]
  · unfold effAdd
    rw [if_neg (by rw [hraise]; exact Bool.false_ne_true)]
    exact runProg_stack body { w with stack := w.stack ++ [e] }
  · intro sig w2 h2
    unfold doGet effCurrent
    rw [h2, List.getLast?_concat]
    unfold addSub
    dsimp only
    rw [if_pos rfl]
    split
    · assumption
    · exact List.mem_append_right _ (List.mem_singleton.mpr rfl)
  · intro body2 hok
    unfold effAdd
    rw [if_pos hok]
    dsimp only
    rw [runProg_stack body2 { w with stack := w.stack ++ [e] }]
    exact List.dropLast_concat

/-- C8 witness: effect `5` raising in the empty world leaves `[5]` on the
stack. -/
theorem effect_throw_stack_leak_w :
    ((effAdd 5 Prog.raise tw0).1).stack = tw0.stack ++ [5] :=
  (effect_throw_stack_leak 5 Prog.raise tw0 rfl).2.1

theorem lookupKey_nil (k : Nat) : lookupKey k ([] : List (Nat × α)) = none := rfl

theorem lookupKey_append (k : Nat) (l1 l2 : List (Nat × α)) :
    lookupKey k (l1 ++ l2)
      = match lookupKey k l1 with
        | some d => some d
        | none => lookupKey k l2 := by
  induction l1 with
  | nil => rfl
  | cons p rest ih =>
      rcases p with ⟨g, d⟩
      by_cases hg : g = k
      · simp [lookupKey, hg]
      · simp only [List.cons_append, lookupKey, if_neg hg]
        exact ih

theorem lookupKey_eraseKey_self (k : Nat) (l : List (Nat × α)) :
    lookupKey k (eraseKey k l) = none := by
  induction l with
  | nil => rfl
  | cons p rest ih =>
      rcases p with ⟨g, d⟩
      by_cases hg : g = k
      · simpa [eraseKey, hg] using ih
      · simpa [eraseKey, lookupKey, hg] using ih

theorem lookupKey_eraseKey_ne (k g : Nat) (hkg : k ≠ g) (l : List (Nat × α)) :
    lookupKey k (eraseKey g l) = lookupKey k l := by
  induction l with
  | nil => rfl
  | cons p rest ih =>
      rcases p with ⟨a, d⟩
      by_cases ha : a = g
      · subst ha
        simpa [eraseKey, lookupKey, Ne.symm hkg] using ih
      · by_cases hak : a = k
        · subst hak
          simp [eraseKey, lookupKey, hkg]
        · simpa [eraseKey, lookupKey, ha, hak] using ih

theorem lookupKey_queue_self (fn sig : Nat) (sn up : Value) (s : Sched) :
    lookupKey fn (queue fn sig sn up s).1
      = some (updateDep ((lookupKey fn s).getD []) sig sn up) := by
  rw [queue_fst, lookupKey_append, lookupKey_eraseKey_self]
  simp [lookupKey]

theorem lookupKey_queue_ne (k fn sig : Nat) (hk : k ≠ fn) (sn up : Value) (s : Sched) :
    lookupKey k (queue fn sig sn up s).1 = lookupKey k s := by
  rw [queue_fst, lookupKey_append, lookupKey_eraseKey_ne k fn hk]
  cases h : lookupKey k s with
  | some d => rfl
  | none => simp [lookupKey, Ne.symm hk]

theorem lookupKey_mem {k : Nat} {d : α} {l : List (Nat × α)}
    (h : lookupKey k l = some d) : (k, d) ∈ l := by
  induction l with
  | nil => exact absurd h (by simp [lookupKey])
  | cons p rest ih =>
      rcases p with ⟨g, e⟩
      by_cases hg : g = k
      · subst hg
        rw [lookupKey, if_pos rfl, Option.some.injEq] at h
        subst h
        exact List.mem_cons_self _ _
      · rw [lookupKey, if_neg hg] at h
        exact List.mem_cons_of_mem _ (ih h)

theorem mem_queue_of_mem {k : Nat} {d : Deps} {s : Sched} (g sig : Nat) (sn up : Value)
    (hmem : (k, d) ∈ s) (hk : k ≠ g) : (k, d) ∈ (queue g sig sn up s).1 := by
  rw [queue_fst]
  exact List.mem_append_left _ (List.mem_filter.mpr ⟨hmem, by simpa using hk⟩)

theorem mem_of_mem_queue {k : Nat} {d : Deps} {s : Sched} {g sig : Nat} {sn up : Value}
    (hmem : (k, d) ∈ (queue g sig sn up s).1) (hk : k ≠ g) : (k, d) ∈ s := by
  rw [queue_fst] at hmem
  rcases List.mem_append.mp hmem with h | h
  · exact List.mem_of_mem_filter h
  · exact absurd (Prod.ext_iff.mp (List.mem_singleton.mp h)).1 hk

theorem schedKeys_eraseKey (fn : Nat) (s : Sched) :
    schedKeys (eraseKey fn s) = (schedKeys s).filter (fun y => y ≠ fn) := by
  induction s with
  | nil => rfl
  | cons p rest ih =>
      by_cases hp : p.1 = fn
      · simpa [eraseKey, schedKeys, List.filter, hp] using ih
      · simpa [eraseKey, schedKeys, List.filter, hp] using ih

theorem schedKeys_queue (fn sig : Nat) (sn up : Value) (s : Sched) :
    schedKeys (queue fn sig sn up s).1 = (schedKeys s).filter (fun y => y ≠ fn) ++ [fn] := by
  have h1 : schedKeys
      (eraseKey fn s ++ [(fn, updateDep ((lookupKey fn s).getD []) sig sn up)])
      = schedKeys (eraseKey fn s) ++ [fn] := by
    simp [schedKeys]
  rw [queue_fst, h1, schedKeys_eraseKey]

theorem schedKeys_applyQueues (ops : List QOp) :
    ∀ s : Sched,
      schedKeys (applyQueues ops s)
        = (ops.map QOp.fn).foldl (fun acc x => acc.filter (fun y => y ≠ x) ++ [x])
            (schedKeys s) := by
  induction ops with
  | nil => intro s; rfl
  | cons op rest ih =>
      intro s
      show schedKeys (applyQueues rest (queue op.fn op.sig op.snap op.upd s).1) = _
      rw [ih, schedKeys_queue]
      rfl

/-- C4: within one batch, the pending record's iteration order — and hence
the flush's rerun order — is the order of each callback's most recent
`queue` in that batch: the keys of the record after any sequence of `queue`
calls are exactly the queued callbacks ordered by last occurrence (because
`queue` deletes and re-appends the callback's entry); in particular, queuing
A, then B, then A again (for a second dependency of A, both with real
changes) makes the flush run B before A. -/
theorem flush_order_most_recent_queue :
    (∀ ops : List QOp, schedKeys (applyQueues ops []) = lastOccOrder (ops.map QOp.fn)) ∧
    (∀ (A B x y z : Nat) (a1 a1s b bs a2 a2s : Value),
      A ≠ B → z ≠ x → b ≠ bs → a2 ≠ a2s →
      flushRunList (applyQueues [⟨A, x, a1, a1s⟩, ⟨B, y, b, bs⟩, ⟨A, z, a2, a2s⟩] [])
        = [B, A]) := by
  constructor
  · intro ops
    rw [schedKeys_applyQueues ops []]
    rfl
  · intro A B x y z a1 a1s b bs a2 a2s hAB hzx hb ha2
    have hBA : B ≠ A := Ne.symm hAB
    have hxz : x ≠ z := Ne.symm hzx
    simp [applyQueues, queue, lookupKey, eraseKey, updateDep, flushRunList, shouldRun,
      hAB, hBA, hxz, hb, ha2]

/-- C4 witness: callback 1 queued on signal 0, callback 2 queued on
signal 1, callback 1 re-queued on signal 2 — the flush runs 2 then 1. -/
theorem flush_order_most_recent_queue_w :
    flushRunList (applyQueues
      [⟨1, 0, Value.base 0, Value.base 1⟩,
       ⟨2, 1, Value.base 3, Value.base 4⟩,
       ⟨1, 2, Value.base 5, Value.base 6⟩] []) = [2, 1] :=
  flush_order_most_recent_queue.2 1 2 0 1 2
    (Value.base 0) (Value.base 1) (Value.base 3) (Value.base 4) (Value.base 5) (Value.base 6)
    (by decide) (by decide) (by decide) (by decide)

theorem set_subscribers (env : Nat → Value → Value) (v : Value) (w : SigWorld) :
    (SigWorld.set env v w).subscribers = w.subscribers := by
  unfold SigWorld.set
  split <;> rfl

theorem runSets_subscribers (env : Nat → Value → Value) (vs : List Value) :
    ∀ w : SigWorld, (runSets env vs w).subscribers = w.subscribers := by
  induction vs with
  | nil => intro w; rfl
  | cons v rest ih =>
      intro w
      show (runSets env rest (SigWorld.set env v w)).subscribers = w.subscribers
      rw [ih (SigWorld.set env v w), set_subscribers]

theorem mem_foldQ_of_not_mem {fn : Nat} {d : Deps} (cur new : Value) :
    ∀ (subs : List Nat) (s : Sched), fn ∉ subs → (fn, d) ∈ s →
      (fn, d) ∈ foldQ cur new subs s := by
  intro subs
  induction subs with
  | nil => intro s _ hmem; exact hmem
  | cons g rest ih =>
      intro s hnot hmem
      show (fn, d) ∈ foldQ cur new rest (queue g 0 cur new s).1
      have hfg : fn ≠ g := fun h => hnot (h ▸ List.mem_cons_self g rest)
      exact ih _ (fun h => hnot (List.mem_cons_of_mem g h))
        (mem_queue_of_mem g 0 cur new hmem hfg)

theorem set_sched_mem {fn : Nat} {d : Deps} (env : Nat → Value → Value) (v : Value)
    (w : SigWorld) (hnot : fn ∉ w.subscribers) (hmem : (fn, d) ∈ w.sched) :
    (fn, d) ∈ (SigWorld.set env v w).sched := by
  unfold SigWorld.set
  split
  · exact hmem
  · exact mem_foldQ_of_not_mem _ _ _ _ hnot hmem

theorem runSets_sched_mem {fn : Nat} {d : Deps} (env : Nat → Value → Value)
    (vs : List Value) :
    ∀ w : SigWorld, fn ∉ w.subscribers → (fn, d) ∈ w.sched →
      (fn, d) ∈ (runSets env vs w).sched := by
  induction vs with
  | nil => intro w _ hmem; exact hmem
  | cons v rest ih =>
      intro w hnot hmem
      show (fn, d) ∈ (runSets env rest (SigWorld.set env v w)).sched
      exact ih _ (by rw [set_subscribers]; exact hnot) (set_sched_mem env v w hnot hmem)

theorem mem_flushRunList {fn : Nat} {d : Deps} {s : Sched}
    (hmem : (fn, d) ∈ s) (hrun : shouldRun d = true) : fn ∈ flushRunList s := by
  unfold flushRunList
  exact List.mem_map.mpr ⟨(fn, d), List.mem_filter.mpr ⟨hmem, hrun⟩, rfl⟩

theorem fireToken_sched (w : SigWorld) : (SigWorld.fireToken w).sched = w.sched := by
  unfold SigWorld.fireToken
  split <;> rfl

/-- C6: once the abort token fires, a callback registered with it is removed
from the signal's subscriber set; every later `set` in the batch or in any
later batch hands it to the scheduler no more (the set of queued callbacks
of every subsequent `set` excludes it); yet an execution of that callback
already pending in the scheduler before the token fired is still there after
any sequence of subsequent sets, and the flush still runs it when some
recorded dependency changed. -/
theorem cancellation_token (env : Nat → Value → Value) (fn : Nat) (w : SigWorld)
    (hreg : fn ∈ w.regs) (hf : w.fired = false) :
    fn ∉ (SigWorld.fireToken w).subscribers ∧
    (∀ (vs : List Value) (v : Value),
      fn ∉ setQueued env v (runSets env vs (SigWorld.fireToken w))) ∧
    (∀ (vs : List Value) (d : Deps), (fn, d) ∈ w.sched →
      (fn, d) ∈ (runSets env vs (SigWorld.fireToken w)).sched ∧
      (shouldRun d = true →
        fn ∈ flushRunList (runSets env vs (SigWorld.fireToken w)).sched)) := by
  have hsub : fn ∉ (SigWorld.fireToken w).subscribers := by
    unfold SigWorld.fireToken
    rw [if_neg (by rw [hf]; exact Bool.false_ne_true)]
    intro hmem
    have := List.of_mem_filter hmem
    rw [decide_eq_true_eq] at this
    exact this hreg
  refine ⟨hsub, ?_, ?_⟩
  · intro vs v
    unfold setQueued
    split
    · exact List.not_mem_nil fn
    · rw [runSets_subscribers]
      exact hsub
  · intro vs d hmem
    have hmem2 : (fn, d) ∈ (runSets env vs (SigWorld.fireToken w)).sched :=
      runSets_sched_mem env vs (SigWorld.fireToken w) hsub
        (by rw [fireToken_sched]; exact hmem)
    exact ⟨hmem2, fun hrun => mem_flushRunList hmem2 hrun⟩

/-- C6 witness: callback 1 is subscribed with the token and has a pending
runnable execution; after the token fires and a further set of `base 2`,
callback 1 is not re-queued but its pending execution still runs. -/
theorem cancellation_token_w :
    1 ∉ (SigWorld.fireToken
      ⟨Value.base 0, [1], [1], false, [(1, [(0, Dep.mk (Value.base 9) (Value.base 8))])]⟩).subscribers ∧
    1 ∉ setQueued idEnv (Value.base 2) (runSets idEnv [Value.base 1]
      (SigWorld.fireToken
        ⟨Value.base 0, [1], [1], false, [(1, [(0, Dep.mk (Value.base 9) (Value.base 8))])]⟩)) ∧
    1 ∈ flushRunList (runSets idEnv [Value.base 1]
      (SigWorld.fireToken
        ⟨Value.base 0, [1], [1], false, [(1, [(0, Dep.mk (Value.base 9) (Value.base 8))])]⟩)).sched := by
  have h := cancellation_token idEnv 1
    ⟨Value.base 0, [1], [1], false, [(1, [(0, Dep.mk (Value.base 9) (Value.base 8))])]⟩
    (by decide) rfl
  exact ⟨h.1, h.2.1 [Value.base 1] (Value.base 2),
    (h.2.2 [Value.base 1] [(0, Dep.mk (Value.base 9) (Value.base 8))]
      (by decide)).2 (by decide)⟩

theorem updateDep_zero_hit (v0 x sn up : Value) :
    updateDep [(0, Dep.mk v0 x)] 0 sn up = [(0, Dep.mk v0 up)] := rfl

theorem updateDep_zero_nil (sn up : Value) :
    updateDep [] 0 sn up = [(0, Dep.mk sn up)] := rfl

theorem mem_of_mem_foldQ {k : Nat} {d : Deps} (cur new : Value) :
    ∀ (subs : List Nat) (s : Sched), (k, d) ∈ foldQ cur new subs s → k ∉ subs →
      (k, d) ∈ s := by
  intro subs
  induction subs with
  | nil => intro s hmem _; exact hmem
  | cons g rest ih =>
      intro s hmem hnot
      have hkg : k ≠ g := fun h => hnot (h ▸ List.mem_cons_self g rest)
      have h1 : (k, d) ∈ (queue g 0 cur new s).1 :=
        ih _ hmem (fun h => hnot (List.mem_cons_of_mem g h))
      exact mem_of_mem_queue h1 hkg

theorem lookupKey_foldQ_isSome (cur new : Value) :
    ∀ (subs : List Nat) (s : Sched) (k : Nat),
      ((lookupKey k s).isSome = true ∨ k ∈ subs) →
      (lookupKey k (foldQ cur new subs s)).isSome = true := by
  intro subs
  induction subs with
  | nil =>
      intro s k h
      rcases h with h | h
      · exact h
      · exact absurd h (List.not_mem_nil k)
  | cons g rest ih =>
      intro s k h
      show (lookupKey k (foldQ cur new rest (queue g 0 cur new s).1)).isSome = true
      by_cases hkg : k = g
      · subst hkg
        refine ih _ k (Or.inl ?_)
        rw [lookupKey_queue_self]
        rfl
      · rcases h with h | h
        · refine ih _ k (Or.inl ?_)
          rw [lookupKey_queue_ne k g 0 hkg]
          exact h
        · rcases List.mem_cons.mp h with h | h
          · exact absurd h hkg
          · exact ih _ k (Or.inr h)

theorem foldQ_shape (v0 cur new : Value) (subs0 : List Nat) :
    ∀ (subs : List Nat) (s : Sched),
      (∀ g ∈ subs, g ∈ subs0) →
      (∀ e ∈ s, e.1 ∈ subs0 ∧ (e.2 = [(0, Dep.mk v0 cur)] ∨ e.2 = [(0, Dep.mk v0 new)])) →
      (cur = v0 ∨ ∀ g ∈ subs, (lookupKey g s).isSome = true) →
      ∀ e ∈ foldQ cur new subs s,
        e.1 ∈ subs0 ∧ (e.2 = [(0, Dep.mk v0 cur)] ∨ e.2 = [(0, Dep.mk v0 new)]) ∧
        (e.1 ∈ subs → e.2 = [(0, Dep.mk v0 new)]) := by
  intro subs
  induction subs with
  | nil =>
      intro s _ hshape _ e he
      exact ⟨(hshape e he).1, (hshape e he).2, fun h => absurd h (List.not_mem_nil e.1)⟩
  | cons g rest ih =>
      intro s hsubs hshape hcov
      have hdg : updateDep ((lookupKey g s).getD []) 0 cur new = [(0, Dep.mk v0 new)] := by
        cases hg : lookupKey g s with
        | some d =>
            have hd2 : d = [(0, Dep.mk v0 cur)] ∨ d = [(0, Dep.mk v0 new)] :=
              (hshape (g, d) (lookupKey_mem hg)).2
            rw [Option.getD_some]
            rcases hd2 with hd2 | hd2 <;> rw [hd2, updateDep_zero_hit]
        | none =>
            rcases hcov with hcv | hcovf
            · subst hcv
              rfl
            · have := hcovf g (List.mem_cons_self g rest)
              rw [hg] at this
              exact absurd this (by decide)
      have hshape1 : ∀ e ∈ (queue g 0 cur new s).1,
          e.1 ∈ subs0 ∧ (e.2 = [(0, Dep.mk v0 cur)] ∨ e.2 = [(0, Dep.mk v0 new)]) := by
        intro e he
        rw [queue_fst] at he
        rcases List.mem_append.mp he with h | h
        · exact hshape e (List.mem_of_mem_filter h)
        · rw [List.mem_singleton] at h
          subst h
          exact ⟨hsubs g (List.mem_cons_self g rest), Or.inr (by rw [hdg])⟩
      have hcov1 : cur = v0 ∨ ∀ g2 ∈ rest, (lookupKey g2 (queue g 0 cur new s).1).isSome = true := by
        rcases hcov with hcv | hcovf
        · exact Or.inl hcv
        · refine Or.inr fun g2 hg2 => ?_
          by_cases hgg : g2 = g
          · subst hgg
            rw [lookupKey_queue_self]
            rfl
          · rw [lookupKey_queue_ne g2 g 0 hgg]
            exact hcovf g2 (List.mem_cons_of_mem g hg2)
      intro e he
      rcases e with ⟨k, d⟩
      obtain ⟨h1, h2, h3⟩ :=
        ih (queue g 0 cur new s).1 (fun g2 hg2 => hsubs g2 (List.mem_cons_of_mem g hg2))
          hshape1 hcov1 (k, d) he
      refine ⟨h1, h2, ?_⟩
      intro hin
      rcases List.mem_cons.mp hin with heg | her
      · by_cases hgr : k ∈ rest
        · exact h3 hgr
        · have hb : (k, d) ∈ (queue g 0 cur new s).1 := mem_of_mem_foldQ cur new rest _ he hgr
          rw [queue_fst] at hb
          rcases List.mem_append.mp hb with h | h
          · have := List.of_mem_filter h
            rw [decide_eq_true_eq] at this
            exact absurd heg this
          · rw [List.mem_singleton] at h
            have hd2 : d = updateDep ((lookupKey g s).getD []) 0 cur new :=
              (Prod.ext_iff.mp h).2
            rw [hd2, hdg]
      · exact h3 her

theorem batchInv_set (env : Nat → Value → Value) (v0 : Value) (subs0 : List Nat)
    (v : Value) (w : SigWorld) (h : batchInv v0 subs0 w) :
    batchInv v0 subs0 (SigWorld.set env v w) := by
  obtain ⟨h1, h2, h3, h4⟩ := h
  unfold SigWorld.set batchInv
  by_cases hvv : w.value = candidate env v w.value
  · rw [if_pos hvv]
    exact ⟨h1, h2, h3, h4⟩
  · rw [if_neg hvv]
    have hcovOr : w.value = v0 ∨ ∀ g ∈ subs0, (lookupKey g w.sched).isSome = true := by
      by_cases hnil : w.sched = []
      · rcases h3 hnil with hv | hs0
        · exact Or.inl hv
        · refine Or.inr ?_
          rw [hs0]
          intro g hg
          exact absurd hg (List.not_mem_nil g)
      · exact Or.inr (h4 hnil)
    refine ⟨h1, ?_, ?_, ?_⟩
    · intro e he
      have he2 : e ∈ foldQ w.value (candidate env v w.value) subs0 w.sched := by
        rw [← h1]
        exact he
      obtain ⟨ha, _, hc⟩ :=
        foldQ_shape v0 w.value (candidate env v w.value) subs0 subs0 w.sched
          (fun g hg => hg) (fun e2 he3 => ⟨(h2 e2 he3).1, Or.inl (h2 e2 he3).2⟩)
          hcovOr e he2
      exact ⟨ha, hc ha⟩
    · intro hnil
      cases subs0 with
      | nil => exact Or.inr rfl
      | cons a rest =>
          exfalso
          have hsome : (lookupKey a
              (foldQ w.value (candidate env v w.value) (a :: rest) w.sched)).isSome = true :=
            lookupKey_foldQ_isSome w.value (candidate env v w.value) (a :: rest) w.sched a
              (Or.inr (List.mem_cons_self a rest))
          have hnil2 : foldQ w.value (candidate env v w.value) (a :: rest) w.sched = [] := by
            rw [← h1]
            exact hnil
          rw [hnil2] at hsome
          simp [lookupKey] at hsome
    · intro _ fn hfn
      have := lookupKey_foldQ_isSome w.value (candidate env v w.value) subs0 w.sched fn
        (Or.inr hfn)
      rw [← h1] at this
      exact this

theorem runSets_batchInv (env : Nat → Value → Value) (v0 : Value) (subs0 : List Nat)
    (vs : List Value) :
    ∀ w : SigWorld, batchInv v0 subs0 w → batchInv v0 subs0 (runSets env vs w) := by
  induction vs with
  | nil => intro w h; exact h
  | cons v rest ih => intro w h; exact ih _ (batchInv_set env v0 subs0 v w h)

theorem batchInv_init (v0 : Value) (subs0 : List Nat) :
    batchInv v0 subs0 ⟨v0, subs0, [], false, []⟩ :=
  ⟨rfl, fun e he => absurd he (List.not_mem_nil e), fun _ => Or.inl rfl,
   fun h => absurd rfl h⟩

/-- C3: net-zero convergence.  Starting a batch from a signal worth `v0`, an
empty scheduler record and any subscriber set, every synchronous burst of
`set` calls whose final stored value is again `v0` leaves the flush with
nothing to run: every pending entry kept the snapshot `v0` from its first
notification of the batch while only its latest value was overwritten, so at
flush time no recorded dependency differs. -/
theorem net_zero_convergence (env : Nat → Value → Value) (vs : List Value)
    (v0 : Value) (subs0 : List Nat)
    (hfinal : (runSets env vs ⟨v0, subs0, [], false, []⟩).value = v0) :
    flushRunList (runSets env vs ⟨v0, subs0, [], false, []⟩).sched = [] := by
  have hinv := runSets_batchInv env v0 subs0 vs _ (batchInv_init v0 subs0)
  unfold flushRunList
  have hfil : (runSets env vs ⟨v0, subs0, [], false, []⟩).sched.filter
      (fun e => shouldRun e.2) = [] := by
    rw [List.filter_eq_nil_iff]
    intro e he
    have h2 := (hinv.2.1 e he).2
    rw [hfinal] at h2
    rw [h2]
    simp [shouldRun]
  rw [hfil]
  rfl

/-- C3 witness: `S.set(1); S.set(2); S.set(0)` on a signal that started at
`0` with two subscribers leaves the flush with nothing to run. -/
theorem net_zero_convergence_w :
    flushRunList (runSets idEnv [Value.base 1, Value.base 2, Value.base 0]
      ⟨Value.base 0, [1, 2], [], false, []⟩).sched = [] :=
  net_zero_convergence idEnv [Value.base 1, Value.base 2, Value.base 0]
    (Value.base 0) [1, 2] (by decide)
